import Mathlib

/-!
Verification of the `ps` persistent data structure library (map.go, list.go).

The map is an unbalanced binary search tree ordered by a 64-bit FNV-1 hash
of the string key, with path copying on every update.  The list is a cons
cell with a stored depth.  Every definition below is a direct translation
of the corresponding Go function; machine integers are modelled as `Nat`
with explicit `% 2 ^ 64` where Go's `uint64` arithmetic can overflow.
-/

namespace PS

/-! ### Hashing: `hashKey` (map.go) uses `fnv.New64()` (64-bit FNV-1) and
`Fprint(hasher, key)`, which feeds the key's UTF-8 bytes to the hash. -/

def fnvOffset : Nat := 14695981039346656037

def fnvPrime : Nat := 1099511628211

/-- One step of 64-bit FNV-1: multiply by the prime (mod 2^64), xor the byte. -/
def fnvStep (h b : Nat) : Nat := (h * fnvPrime % 2 ^ 64) ^^^ b

/-- UTF-8 encoding of one code point, as byte values. -/
def utf8Bytes (c : Nat) : List Nat :=
  if c < 128 then [c]
  else if c < 2048 then [192 + c / 64, 128 + c % 64]
  else if c < 65536 then [224 + c / 4096, 128 + c / 64 % 64, 128 + c % 64]
  else [240 + c / 262144, 128 + c / 4096 % 64, 128 + c / 64 % 64, 128 + c % 64]

/-- The UTF-8 bytes of a string, the data Go writes into the hasher. -/
def stringBytes (s : String) : List Nat :=
  (s.data.map (fun c => utf8Bytes c.toNat)).flatten

/-- `hashKey` of map.go: 64-bit FNV-1 over the key's bytes. -/
def hashKey (key : String) : Nat :=
  (stringBytes key).foldl fnvStep fnvOffset

/-! ### The map's tree (map.go).

`tree` is the node record; the canonical empty map `nilMap` is a sentinel
whose `left`/`right` point at itself, so the embedding represents it as the
`nil` constructor whose `left`/`right`/`count`/`hash` accessors return the
sentinel's own field values (itself, itself, 0, 0). -/

inductive Tree (α : Type) where
  | nil : Tree α
  | node (count : Nat) (hash : Nat) (key : String) (value : α)
      (left : Tree α) (right : Tree α) : Tree α
deriving DecidableEq

variable {α : Type}

/-- `IsNil` of map.go: pointer equality with the sentinel `nilMap`. -/
def Tree.IsNil : Tree α → Bool
  | .nil => true
  | .node .. => false

/-- The `count` field; the sentinel's count is 0. -/
def Tree.count : Tree α → Nat
  | .nil => 0
  | .node c _ _ _ _ _ => c

/-- The `hash` field; the sentinel's hash is 0. -/
def Tree.hash : Tree α → Nat
  | .nil => 0
  | .node _ h _ _ _ _ => h

/-- The `key` field; the sentinel's key is the empty string. -/
def Tree.key : Tree α → String
  | .nil => ""
  | .node _ _ k _ _ _ => k

/-- The `left` field; the sentinel's left child is itself. -/
def Tree.left : Tree α → Tree α
  | .nil => .nil
  | .node _ _ _ _ l _ => l

/-- The `right` field; the sentinel's right child is itself. -/
def Tree.right : Tree α → Tree α
  | .nil => .nil
  | .node _ _ _ _ _ r => r

/-- The stored key/value pair of the root node, if any. -/
def Tree.rootPair : Tree α → Option (String × α)
  | .nil => none
  | .node _ _ k v _ _ => some (k, v)

/-- `Size` of map.go: returns the stored `count` field, O(1). -/
def Tree.Size (m : Tree α) : Nat := m.count

/-- `NewMap` of map.go returns the sentinel. -/
def NewMap : Tree α := .nil

/-- `hasLeft` of map.go. -/
def Tree.hasLeft (m : Tree α) : Bool := !m.left.IsNil

/-- `hasRight` of map.go. -/
def Tree.hasRight (m : Tree α) : Bool := !m.right.IsNil

/-- `isLeaf` of map.go: `Size() == 1`. -/
def Tree.isLeaf (m : Tree α) : Bool := m.Size == 1

/-- `subtreeCount` of map.go: how many non-sentinel children. -/
def Tree.subtreeCount (m : Tree α) : Nat :=
  (if m.hasLeft then 1 else 0) + (if m.hasRight then 1 else 0)

/-- `recalculateCount` of map.go: recompute a node's count from the stored
counts of its children (the source mutates the freshly cloned node; the
embedding rebuilds it). -/
def recalculateCount : Tree α → Tree α
  | .nil => .nil
  | .node _ h k v l r =>
    .node ((if !l.IsNil then l.Size else 0) + (if !r.IsNil then r.Size else 0) + 1)
      h k v l r

/-- `setLowLevel` of map.go: path-copying insert / value replacement. -/
def setLowLevel : Tree α → Nat → String → α → Tree α
  | .nil, hash, key, value =>
    -- clone of the sentinel with count 1, the new hash/key/value, sentinel children
    .node 1 hash key value .nil .nil
  | .node c h k v l r, hash, key, value =>
    if hash < h then
      recalculateCount (.node c h k v (setLowLevel l hash key value) r)
    else if hash > h then
      recalculateCount (.node c h k v l (setLowLevel r hash key value))
    else
      -- replacing a key's previous value
      .node c h k value l r

/-- `lookupLowLevel` of map.go; Go returns `(value, true)` / `(nil, false)`,
modelled as `Option α`. -/
def lookupLowLevel : Tree α → Nat → Option α
  | .nil, _ => none
  | .node _ h _ v l r, hash =>
    if hash < h then lookupLowLevel l hash
    else if hash > h then lookupLowLevel r hash
    else some v

/-- `deleteRightmost` of map.go: extract the rightmost node, returning the
extracted node and the rebuilt remainder.  Note the source resets neither
the `count` nor the `right` field of the extracted node in the final branch
(unlike `deleteLeftmost`, which sets `count = 1`); the extracted node's
stale count is harmless because every caller clones it and recalculates.
The `nil` case is unreachable: the source never calls this on the sentinel. -/
def Tree.deleteRightmost : Tree α → Tree α × Tree α
  | .nil => (.nil, .nil)
  | .node c h k v l r =>
    if c == 1 then -- isLeaf
      (.node c h k v l r, .nil)
    else if !r.IsNil then -- hasRight
      let dr := Tree.deleteRightmost r
      (dr.1, recalculateCount (.node c h k v l dr.2))
    else
      -- deleted := m.clone(); deleted.left = nilMap; return deleted, m.left
      (.node c h k v .nil r, l)

/-- `deleteLeftmost` of map.go: extract the leftmost node.  Here the source
does set `count = 1` and `right = nilMap` on the extracted clone. -/
def Tree.deleteLeftmost : Tree α → Tree α × Tree α
  | .nil => (.nil, .nil)
  | .node c h k v l r =>
    if c == 1 then -- isLeaf
      (.node c h k v l r, .nil)
    else if !l.IsNil then -- hasLeft
      let dl := Tree.deleteLeftmost l
      (dl.1, recalculateCount (.node c h k v dl.2 r))
    else
      -- deleted := m.clone(); deleted.count = 1; deleted.right = nilMap
      (.node 1 h k v l .nil, r)

/-- A clone of a node with both children replaced (the
`newMap := replacement.clone(); newMap.left = ...; newMap.right = ...`
sequence of map.go).  The `nil` case is unreachable: the replacement
extracted from a non-empty subtree is never the sentinel. -/
def Tree.withChildren : Tree α → Tree α → Tree α → Tree α
  | .nil, _, _ => .nil
  | .node c h k v _ _, l, r => .node c h k v l r

/-- The tail of `deleteLowLevel` (map.go lines 185-213): delete the node
`self` itself, choosing a replacement when it has two children.  The
replacement comes from the strictly larger subtree; ties go to the right
branch (leftmost of the right subtree). -/
def deleteOwnNode : Tree α → Tree α × Bool
  | .nil =>
    -- unreachable: `deleteLowLevel` returns before this point when self is
    -- the sentinel; translated for totality only
    (.nil, true)
  | .node c h k v l r =>
    if (Tree.node c h k v l r).isLeaf then
      (.nil, true)
    else if (Tree.node c h k v l r).subtreeCount == 1 then
      if (Tree.node c h k v l r).hasLeft then (l, true) else (r, true)
    else if l.Size > r.Size then -- make left side smaller
      let dr := l.deleteRightmost
      (recalculateCount (dr.1.withChildren dr.2 r), true)
    else -- make right side smaller
      let dl := r.deleteLeftmost
      (recalculateCount (dl.1.withChildren l dl.2), true)

/-- `deleteLowLevel` of map.go.  NOTE: in the source, both subtree branches
build a rebuilt `newMap` after a successful recursive delete but contain no
`return` statement, so control falls through to the delete-own-node code
below them; the rebuilt subtree is discarded.  The translation mirrors that
control flow: on a successful recursive delete the function proceeds to
`deleteOwnNode self`. -/
def deleteLowLevel : Tree α → Nat → Tree α × Bool
  | .nil, _ => (.nil, false)
  | .node c h k v l r, hash =>
    if hash < h then
      if (deleteLowLevel l hash).2 then deleteOwnNode (.node c h k v l r)
      else (.node c h k v l r, false)
    else if hash > h then
      if (deleteLowLevel r hash).2 then deleteOwnNode (.node c h k v l r)
      else (.node c h k v l r, false)
    else
      deleteOwnNode (.node c h k v l r)

/-- `Set` of map.go. -/
def Tree.Set (self : Tree α) (key : String) (value : α) : Tree α :=
  setLowLevel self (hashKey key) key value

/-- `Delete` of map.go. -/
def Tree.Delete (m : Tree α) (key : String) : Tree α :=
  (deleteLowLevel m (hashKey key)).1

/-- `Lookup` of map.go. -/
def Tree.Lookup (m : Tree α) (key : String) : Option α :=
  lookupLowLevel m (hashKey key)

/-- The visit sequence of `ForEach` of map.go: left branch, self, right
branch (the guards mirror the source's `IsNil` checks). -/
def Tree.forEachSeq : Tree α → List (String × α)
  | .nil => []
  | .node _ _ k v l r =>
    (if !l.IsNil then l.forEachSeq else []) ++
      (k, v) :: (if !r.IsNil then r.forEachSeq else [])

/-- `Keys` of map.go: a slice of length `Size()` filled in `ForEach` order.
If the traversal visits more pairs than `Size()`, Go panics on an
out-of-range index (modelled as `none`); if fewer, the remaining entries
keep the zero value `""`. -/
def Tree.Keys (m : Tree α) : Option (List String) :=
  let ks := m.forEachSeq.map Prod.fst
  if ks.length ≤ m.Size then some (ks ++ List.replicate (m.Size - ks.length) "")
  else none

/-! ### The persistent list (list.go).

A cons cell stores `depth` (the number of nodes from here down, 0 for the
shared empty list), the value and the tail.  `Head`/`Tail` panic on the
empty list; the panic is modelled as `Except.error` carrying the panic
message. -/

inductive PList (α : Type) where
  | nil : PList α
  | cons (depth : Nat) (value : α) (tail : PList α) : PList α
deriving DecidableEq

/-- `NewList` of list.go returns the shared empty list. -/
def NewList : PList α := .nil

/-- `IsNil` of list.go: pointer equality with `nilList`. -/
def PList.IsNil : PList α → Bool
  | .nil => true
  | .cons .. => false

/-- The stored `depth` field; the empty list's depth is 0. -/
def PList.depth : PList α → Nat
  | .nil => 0
  | .cons d _ _ => d

/-- `Size` of list.go: returns the stored depth. -/
def PList.Size (l : PList α) : Nat := l.depth

/-- `Cons` of list.go: one new cell whose tail is the receiver, shared. -/
def PList.Cons (tail : PList α) (val : α) : PList α :=
  .cons (tail.depth + 1) val tail

/-- `Head` of list.go: panics on the empty list. -/
def PList.Head : PList α → Except String α
  | .nil => .error "Called Head() on an empty list"
  | .cons _ v _ => .ok v

/-- `Tail` of list.go: panics on the empty list. -/
def PList.Tail : PList α → Except String (PList α)
  | .nil => .error "Called Tail() on an empty list"
  | .cons _ _ t => .ok t

/-- The visit sequence of `ForEach` of list.go: head first, then the tail. -/
def PList.toList : PList α → List α
  | .nil => []
  | .cons _ v t => v :: t.toList

/-- `Reverse` of list.go: fold `Cons` over the list in `ForEach` order,
starting from a new empty list. -/
def PList.Reverse (self : PList α) : PList α :=
  self.toList.foldl PList.Cons NewList

/-- The data-model invariant of list nodes (spec section 3):
`depth = 1 + depth(tail)`, recursively, with the empty list at depth 0.
Every list built by `NewList`/`Cons`/`Tail` satisfies it. -/
def PList.depthOk : PList α → Bool
  | .nil => true
  | .cons d _ t => d == t.depth + 1 && t.depthOk

/-! ### List lemmas -/

lemma PList.toList_Cons (acc : PList α) (x : α) :
    (acc.Cons x).toList = x :: acc.toList := rfl

lemma PList.depth_Cons (acc : PList α) (x : α) :
    (acc.Cons x).depth = acc.depth + 1 := rfl

lemma PList.toList_foldl_Cons (xs : List α) (acc : PList α) :
    (xs.foldl PList.Cons acc).toList = xs.reverse ++ acc.toList := by
  induction xs generalizing acc with
  | nil => simp
  | cons x xs ih => simp [List.foldl_cons, ih, PList.toList_Cons]

lemma PList.depth_foldl_Cons (xs : List α) (acc : PList α) :
    (xs.foldl PList.Cons acc).depth = xs.length + acc.depth := by
  induction xs generalizing acc with
  | nil => simp
  | cons x xs ih => simp [List.foldl_cons, ih, PList.depth_Cons]; omega

lemma PList.toList_Reverse (l : PList α) :
    l.Reverse.toList = l.toList.reverse := by
  simp [PList.Reverse, PList.toList_foldl_Cons, NewList, PList.toList]

lemma PList.depth_Reverse (l : PList α) :
    l.Reverse.depth = l.toList.length := by
  simp only [PList.Reverse, PList.depth_foldl_Cons]
  rfl

lemma PList.depth_eq_length (l : PList α) (h : l.depthOk = true) :
    l.depth = l.toList.length := by
  induction l with
  | nil => rfl
  | cons d v t ih =>
    simp only [PList.depthOk, Bool.and_eq_true, beq_iff_eq] at h
    simp only [PList.depth, PList.toList, List.length_cons]
    rw [h.1, ih h.2]

/-! ### Map lemmas: lookup after set, absent-hash delete, overwrite -/

/-- Whether a hash value occurs at some node of the tree. -/
def hashMem (hash : Nat) : Tree α → Bool
  | .nil => false
  | .node _ h _ _ l r => hash == h || hashMem hash l || hashMem hash r

@[simp] lemma Tree.count_nil : (Tree.nil : Tree α).count = 0 := rfl

@[simp] lemma Tree.count_node (c h : Nat) (k : String) (v : α) (l r : Tree α) :
    (Tree.node c h k v l r).count = c := rfl

@[simp] lemma Tree.hash_node (c h : Nat) (k : String) (v : α) (l r : Tree α) :
    (Tree.node c h k v l r).hash = h := rfl

@[simp] lemma Tree.key_node (c h : Nat) (k : String) (v : α) (l r : Tree α) :
    (Tree.node c h k v l r).key = k := rfl

@[simp] lemma Tree.left_node (c h : Nat) (k : String) (v : α) (l r : Tree α) :
    (Tree.node c h k v l r).left = l := rfl

@[simp] lemma Tree.right_node (c h : Nat) (k : String) (v : α) (l r : Tree α) :
    (Tree.node c h k v l r).right = r := rfl

@[simp] lemma Tree.IsNil_nil : (Tree.nil : Tree α).IsNil = true := rfl

@[simp] lemma Tree.IsNil_node (c h : Nat) (k : String) (v : α) (l r : Tree α) :
    (Tree.node c h k v l r).IsNil = false := rfl

@[simp] lemma Tree.rootPair_node (c h : Nat) (k : String) (v : α) (l r : Tree α) :
    (Tree.node c h k v l r).rootPair = some (k, v) := rfl

lemma recalculateCount_node (c h : Nat) (k : String) (v : α) (l r : Tree α) :
    recalculateCount (.node c h k v l r) = .node (l.count + r.count + 1) h k v l r := by
  cases l <;> cases r <;> rfl

lemma lookupLowLevel_setLowLevel (m : Tree α) (hash : Nat) (k : String) (v : α) :
    lookupLowLevel (setLowLevel m hash k v) hash = some v := by
  induction m with
  | nil => simp [setLowLevel, lookupLowLevel]
  | node c h k0 v0 l r ihl ihr =>
    by_cases h1 : hash < h
    · simp [setLowLevel, h1, recalculateCount_node, lookupLowLevel, ihl]
    · by_cases h2 : hash > h
      · simp [setLowLevel, h1, h2, recalculateCount_node, lookupLowLevel, ihr]
      · simp [setLowLevel, h1, h2, lookupLowLevel]

lemma deleteLowLevel_not_found (m : Tree α) (hash : Nat) (hm : hashMem hash m = false) :
    deleteLowLevel m hash = (m, false) := by
  induction m with
  | nil => rfl
  | node c h k v l r ihl ihr =>
    simp only [hashMem, Bool.or_eq_false_iff, beq_eq_false_iff_ne, ne_eq] at hm
    obtain ⟨⟨hne, hl⟩, hr⟩ := hm
    by_cases h1 : hash < h
    · simp [deleteLowLevel, h1, ihl hl]
    · have h2 : hash > h := by omega
      simp [deleteLowLevel, h1, h2, ihr hr]

lemma count_setLowLevel_setLowLevel (m : Tree α) (hash : Nat) (k1 : String) (v1 : α)
    (k2 : String) (v2 : α) :
    (setLowLevel (setLowLevel m hash k1 v1) hash k2 v2).count
      = (setLowLevel m hash k1 v1).count := by
  induction m with
  | nil => simp [setLowLevel]
  | node c h k v l r ihl ihr =>
    by_cases h1 : hash < h
    · simp [setLowLevel, h1, recalculateCount_node, ihl]
    · by_cases h2 : hash > h
      · simp [setLowLevel, h1, h2, recalculateCount_node, ihr]
      · simp [setLowLevel, h1, h2]

/-! ### The search-tree invariant (spec section 3) -/

/-- All node hashes of the tree satisfy `p`. -/
def allHashes (p : Nat → Bool) : Tree α → Bool
  | .nil => true
  | .node _ h _ _ l r => p h && allHashes p l && allHashes p r

/-- Strict BST ordering by hash: at every node all hashes in the left
subtree are smaller and all hashes in the right subtree are larger. -/
def ordered : Tree α → Bool
  | .nil => true
  | .node _ h _ _ l r =>
    allHashes (fun x => decide (x < h)) l && allHashes (fun x => decide (h < x)) r
      && ordered l && ordered r

/-- Every stored count equals `1 + count(left) + count(right)`. -/
def countOk : Tree α → Bool
  | .nil => true
  | .node c _ _ _ l r => c == l.count + r.count + 1 && countOk l && countOk r

/-- Every stored hash is the FNV-1 hash of the stored key. -/
def hashOk : Tree α → Bool
  | .nil => true
  | .node _ h k _ l r => h == hashKey k && hashOk l && hashOk r

/-- Maps producible through the public API: `NewMap` followed by any
sequence of `Set` and `Delete` calls. -/
inductive Reachable : Tree α → Prop where
  | empty : Reachable NewMap
  | set (m : Tree α) (k : String) (v : α) : Reachable m → Reachable (m.Set k v)
  | delete (m : Tree α) (k : String) : Reachable m → Reachable (m.Delete k)

lemma allHashes_imp {p q : Nat → Bool} (m : Tree α) (hpq : ∀ x, p x = true → q x = true)
    (hm : allHashes p m = true) : allHashes q m = true := by
  induction m with
  | nil => rfl
  | node c h k v l r ihl ihr =>
    simp only [allHashes, Bool.and_eq_true] at hm ⊢
    exact ⟨⟨hpq _ hm.1.1, ihl hm.1.2⟩, ihr hm.2⟩

lemma nil_of_count_zero (m : Tree α) (hc : countOk m = true) (h0 : m.count = 0) :
    m = .nil := by
  cases m with
  | nil => rfl
  | node c h k v l r =>
    simp only [countOk, Bool.and_eq_true, beq_iff_eq] at hc
    simp only [Tree.count_node] at h0
    omega

lemma allHashes_setLowLevel {p : Nat → Bool} (m : Tree α) (hash : Nat) (k : String)
    (v : α) (hm : allHashes p m = true) (hp : p hash = true) :
    allHashes p (setLowLevel m hash k v) = true := by
  induction m with
  | nil => simp [setLowLevel, allHashes, hp]
  | node c h k0 v0 l r ihl ihr =>
    simp only [allHashes, Bool.and_eq_true] at hm
    by_cases h1 : hash < h
    · simp [setLowLevel, h1, recalculateCount_node, allHashes, hm.1.1, hm.2, ihl hm.1.2]
    · by_cases h2 : hash > h
      · simp [setLowLevel, h1, h2, recalculateCount_node, allHashes, hm.1.1, hm.1.2,
          ihr hm.2]
      · simp [setLowLevel, h1, h2, allHashes, hm.1.1, hm.1.2, hm.2]

lemma ordered_setLowLevel (m : Tree α) (hash : Nat) (k : String) (v : α)
    (hm : ordered m = true) : ordered (setLowLevel m hash k v) = true := by
  induction m with
  | nil => simp [setLowLevel, ordered, allHashes]
  | node c h k0 v0 l r ihl ihr =>
    simp only [ordered, Bool.and_eq_true] at hm
    obtain ⟨⟨⟨hal, har⟩, hol⟩, hor⟩ := hm
    by_cases h1 : hash < h
    · have hl := allHashes_setLowLevel (p := fun x => decide (x < h)) l hash k v hal
        (by simpa using h1)
      simp [setLowLevel, h1, recalculateCount_node, ordered, hl, har, ihl hol, hor]
    · by_cases h2 : hash > h
      · have hr := allHashes_setLowLevel (p := fun x => decide (h < x)) r hash k v har
          (by simpa using h2)
        simp [setLowLevel, h1, h2, recalculateCount_node, ordered, hal, hr, hol, ihr hor]
      · simp [setLowLevel, h1, h2, ordered, hal, har, hol, hor]

lemma countOk_setLowLevel (m : Tree α) (hash : Nat) (k : String) (v : α)
    (hm : countOk m = true) : countOk (setLowLevel m hash k v) = true := by
  induction m with
  | nil => simp [setLowLevel, countOk]
  | node c h k0 v0 l r ihl ihr =>
    simp only [countOk, Bool.and_eq_true, beq_iff_eq] at hm
    obtain ⟨⟨hcc, hcl⟩, hcr⟩ := hm
    by_cases h1 : hash < h
    · simp [setLowLevel, h1, recalculateCount_node, countOk, ihl hcl, hcr]
    · by_cases h2 : hash > h
      · simp [setLowLevel, h1, h2, recalculateCount_node, countOk, hcl, ihr hcr]
      · simp [setLowLevel, h1, h2, countOk, hcc, hcl, hcr]

lemma hashOk_setLowLevel (m : Tree α) (k : String) (v : α)
    (hm : hashOk m = true) : hashOk (setLowLevel m (hashKey k) k v) = true := by
  induction m with
  | nil => simp [setLowLevel, hashOk]
  | node c h k0 v0 l r ihl ihr =>
    simp only [hashOk, Bool.and_eq_true] at hm
    obtain ⟨⟨hh, hl⟩, hr⟩ := hm
    by_cases h1 : hashKey k < h
    · simp [setLowLevel, h1, recalculateCount_node, hashOk, hh, hr, ihl hl]
    · by_cases h2 : hashKey k > h
      · simp [setLowLevel, h1, h2, recalculateCount_node, hashOk, hh, hl, ihr hr]
      · simp [setLowLevel, h1, h2, hashOk, hh, hl, hr]

lemma Tree.eq_nil_of_IsNil {m : Tree α} (h : m.IsNil = true) : m = .nil := by
  cases m with
  | nil => rfl
  | node c hh k v l r => simp [Tree.IsNil] at h

lemma allHashes_node (p : Nat → Bool) (c h : Nat) (k : String) (v : α) (l r : Tree α) :
    allHashes p (.node c h k v l r) = (p h && allHashes p l && allHashes p r) := rfl

lemma ordered_node (c h : Nat) (k : String) (v : α) (l r : Tree α) :
    ordered (.node c h k v l r)
      = (allHashes (fun x => decide (x < h)) l && allHashes (fun x => decide (h < x)) r
          && ordered l && ordered r) := rfl

lemma countOk_node (c h : Nat) (k : String) (v : α) (l r : Tree α) :
    countOk (.node c h k v l r) = ((c == l.count + r.count + 1) && countOk l && countOk r) :=
  rfl

lemma hashOk_node (c h : Nat) (k : String) (v : α) (l r : Tree α) :
    hashOk (.node c h k v l r) = ((h == hashKey k) && hashOk l && hashOk r) := rfl

lemma deleteRightmost_inv (m : Tree α) :
    countOk m = true → m.IsNil = false → ordered m = true →
      m.deleteRightmost.1.IsNil = false ∧
      countOk m.deleteRightmost.2 = true ∧
      ordered m.deleteRightmost.2 = true ∧
      allHashes (fun x => decide (x < m.deleteRightmost.1.hash)) m.deleteRightmost.2
        = true ∧
      (∀ p : Nat → Bool, allHashes p m = true →
        p m.deleteRightmost.1.hash = true ∧ allHashes p m.deleteRightmost.2 = true) ∧
      (hashOk m = true → hashOk m.deleteRightmost.2 = true ∧
        m.deleteRightmost.1.hash = hashKey m.deleteRightmost.1.key) := by
  induction m with
  | nil => intro _ hnil _; simp at hnil
  | node c h k v l r ihl ihr =>
    intro hc hnil ho
    clear ihl hnil
    simp only [countOk_node, Bool.and_eq_true, beq_iff_eq] at hc
    obtain ⟨⟨hcc, hcl⟩, hcr⟩ := hc
    simp only [ordered_node, Bool.and_eq_true] at ho
    obtain ⟨⟨⟨hal, har⟩, hol⟩, hor⟩ := ho
    by_cases hc1 : c = 1
    · -- isLeaf: both children are the sentinel
      have hln : l = .nil := nil_of_count_zero l hcl (by omega)
      have hrn : r = .nil := nil_of_count_zero r hcr (by omega)
      subst hln hrn hc1
      refine ⟨rfl, rfl, rfl, rfl, ?_, ?_⟩
      · intro p hp
        simp only [allHashes_node, Bool.and_eq_true] at hp
        exact ⟨hp.1.1, rfl⟩
      · intro hh
        simp only [hashOk_node, Bool.and_eq_true, beq_iff_eq] at hh
        exact ⟨rfl, hh.1.1⟩
    · by_cases hrn : r.IsNil
      · -- no right child: extract self, the remainder is the left subtree
        have hr0 : r = .nil := Tree.eq_nil_of_IsNil hrn
        subst hr0
        have hstep : (Tree.node c h k v l .nil).deleteRightmost
            = (.node c h k v .nil .nil, l) := by
          simp [Tree.deleteRightmost, hc1]
        rw [hstep]
        refine ⟨rfl, hcl, hol, by simpa using hal, ?_, ?_⟩
        · intro p hp
          simp only [allHashes_node, Bool.and_eq_true] at hp
          simp only [Tree.hash_node]
          exact ⟨hp.1.1, hp.1.2⟩
        · intro hh
          simp only [hashOk_node, Bool.and_eq_true, beq_iff_eq] at hh
          simp only [Tree.hash_node, Tree.key_node]
          exact ⟨hh.1.2, hh.1.1⟩
      · -- recurse into the right subtree
        have hrne : r.IsNil = false := by simpa using hrn
        obtain ⟨ih1, ih2, ih3, ih4, ih5, ih6⟩ := ihr hcr hrne hor
        have hstep : (Tree.node c h k v l r).deleteRightmost
            = (r.deleteRightmost.1,
               .node (l.count + r.deleteRightmost.2.count + 1) h k v l
                 r.deleteRightmost.2) := by
          simp [Tree.deleteRightmost, hc1, hrne, recalculateCount_node]
        rw [hstep]
        have hhd : decide (h < r.deleteRightmost.1.hash) = true :=
          (ih5 (fun x => decide (h < x)) har).1
        have hhd' : h < r.deleteRightmost.1.hash := of_decide_eq_true hhd
        refine ⟨ih1, ?_, ?_, ?_, ?_, ?_⟩
        · simp only [countOk_node, Bool.and_eq_true, beq_iff_eq]
          exact ⟨⟨by trivial, hcl⟩, ih2⟩
        · simp only [ordered_node, Bool.and_eq_true]
          exact ⟨⟨⟨hal, (ih5 (fun x => decide (h < x)) har).2⟩, hol⟩, ih3⟩
        · simp only [allHashes_node, Bool.and_eq_true]
          refine ⟨⟨by simpa using hhd, ?_⟩, ih4⟩
          refine allHashes_imp l ?_ hal
          intro x hx
          simp only [decide_eq_true_eq] at hx ⊢
          omega
        · intro p hp
          simp only [allHashes_node, Bool.and_eq_true] at hp
          obtain ⟨⟨hph, hpl⟩, hpr⟩ := hp
          obtain ⟨pd, prr⟩ := ih5 p hpr
          exact ⟨pd, by simp only [allHashes_node, Bool.and_eq_true]; exact ⟨⟨hph, hpl⟩, prr⟩⟩
        · intro hh
          simp only [hashOk_node, Bool.and_eq_true, beq_iff_eq] at hh
          obtain ⟨⟨hhk, hhl⟩, hhr⟩ := hh
          obtain ⟨hOkr, heq⟩ := ih6 hhr
          refine ⟨?_, heq⟩
          simp only [hashOk_node, Bool.and_eq_true, beq_iff_eq]
          exact ⟨⟨hhk, hhl⟩, hOkr⟩

lemma deleteLeftmost_inv (m : Tree α) :
    countOk m = true → m.IsNil = false → ordered m = true →
      m.deleteLeftmost.1.IsNil = false ∧
      countOk m.deleteLeftmost.2 = true ∧
      ordered m.deleteLeftmost.2 = true ∧
      allHashes (fun x => decide (m.deleteLeftmost.1.hash < x)) m.deleteLeftmost.2
        = true ∧
      (∀ p : Nat → Bool, allHashes p m = true →
        p m.deleteLeftmost.1.hash = true ∧ allHashes p m.deleteLeftmost.2 = true) ∧
      (hashOk m = true → hashOk m.deleteLeftmost.2 = true ∧
        m.deleteLeftmost.1.hash = hashKey m.deleteLeftmost.1.key) := by
  induction m with
  | nil => intro _ hnil _; simp at hnil
  | node c h k v l r ihl ihr =>
    intro hc hnil ho
    clear ihr hnil
    simp only [countOk_node, Bool.and_eq_true, beq_iff_eq] at hc
    obtain ⟨⟨hcc, hcl⟩, hcr⟩ := hc
    simp only [ordered_node, Bool.and_eq_true] at ho
    obtain ⟨⟨⟨hal, har⟩, hol⟩, hor⟩ := ho
    by_cases hc1 : c = 1
    · -- isLeaf: both children are the sentinel
      have hln : l = .nil := nil_of_count_zero l hcl (by omega)
      have hrn : r = .nil := nil_of_count_zero r hcr (by omega)
      subst hln hrn hc1
      refine ⟨rfl, rfl, rfl, rfl, ?_, ?_⟩
      · intro p hp
        simp only [allHashes_node, Bool.and_eq_true] at hp
        exact ⟨hp.1.1, rfl⟩
      · intro hh
        simp only [hashOk_node, Bool.and_eq_true, beq_iff_eq] at hh
        exact ⟨rfl, hh.1.1⟩
    · by_cases hln : l.IsNil
      · -- no left child: extract self, the remainder is the right subtree
        have hl0 : l = .nil := Tree.eq_nil_of_IsNil hln
        subst hl0
        have hstep : (Tree.node c h k v .nil r).deleteLeftmost
            = (.node 1 h k v .nil .nil, r) := by
          simp [Tree.deleteLeftmost, hc1]
        rw [hstep]
        refine ⟨rfl, hcr, hor, by simpa using har, ?_, ?_⟩
        · intro p hp
          simp only [allHashes_node, Bool.and_eq_true] at hp
          simp only [Tree.hash_node]
          exact ⟨hp.1.1, hp.2⟩
        · intro hh
          simp only [hashOk_node, Bool.and_eq_true, beq_iff_eq] at hh
          simp only [Tree.hash_node, Tree.key_node]
          exact ⟨hh.2, hh.1.1⟩
      · -- recurse into the left subtree
        have hlne : l.IsNil = false := by simpa using hln
        obtain ⟨ih1, ih2, ih3, ih4, ih5, ih6⟩ := ihl hcl hlne hol
        have hstep : (Tree.node c h k v l r).deleteLeftmost
            = (l.deleteLeftmost.1,
               .node (l.deleteLeftmost.2.count + r.count + 1) h k v
                 l.deleteLeftmost.2 r) := by
          simp [Tree.deleteLeftmost, hc1, hlne, recalculateCount_node]
        rw [hstep]
        have hhd : decide (l.deleteLeftmost.1.hash < h) = true :=
          (ih5 (fun x => decide (x < h)) hal).1
        have hhd' : l.deleteLeftmost.1.hash < h := of_decide_eq_true hhd
        refine ⟨ih1, ?_, ?_, ?_, ?_, ?_⟩
        · simp only [countOk_node, Bool.and_eq_true, beq_iff_eq]
          exact ⟨⟨by trivial, ih2⟩, hcr⟩
        · simp only [ordered_node, Bool.and_eq_true]
          exact ⟨⟨⟨(ih5 (fun x => decide (x < h)) hal).2, har⟩, ih3⟩, hor⟩
        · simp only [allHashes_node, Bool.and_eq_true]
          refine ⟨⟨by simpa using hhd, ih4⟩, ?_⟩
          refine allHashes_imp r ?_ har
          intro x hx
          simp only [decide_eq_true_eq] at hx ⊢
          omega
        · intro p hp
          simp only [allHashes_node, Bool.and_eq_true] at hp
          obtain ⟨⟨hph, hpl⟩, hpr⟩ := hp
          obtain ⟨pd, pll⟩ := ih5 p hpl
          exact ⟨pd, by simp only [allHashes_node, Bool.and_eq_true]; exact ⟨⟨hph, pll⟩, hpr⟩⟩
        · intro hh
          simp only [hashOk_node, Bool.and_eq_true, beq_iff_eq] at hh
          obtain ⟨⟨hhk, hhl⟩, hhr⟩ := hh
          obtain ⟨hOkl, heq⟩ := ih6 hhl
          refine ⟨?_, heq⟩
          simp only [hashOk_node, Bool.and_eq_true, beq_iff_eq]
          exact ⟨⟨hhk, hOkl⟩, hhr⟩

lemma countOk_recalc_withChildren (d l' r' : Tree α) (hd : d.IsNil = false)
    (h1 : countOk l' = true) (h2 : countOk r' = true) :
    countOk (recalculateCount (d.withChildren l' r')) = true := by
  cases d with
  | nil => simp at hd
  | node c h k v l r =>
    simp [Tree.withChildren, recalculateCount_node, countOk_node, h1, h2]

lemma ordered_recalc_withChildren (d l' r' : Tree α) (hd : d.IsNil = false)
    (h1 : allHashes (fun x => decide (x < d.hash)) l' = true)
    (h2 : allHashes (fun x => decide (d.hash < x)) r' = true)
    (h3 : ordered l' = true) (h4 : ordered r' = true) :
    ordered (recalculateCount (d.withChildren l' r')) = true := by
  cases d with
  | nil => simp at hd
  | node c h k v l r =>
    simp only [Tree.hash_node] at h1 h2
    simp [Tree.withChildren, recalculateCount_node, ordered_node, h1, h2, h3, h4]

lemma hashOk_recalc_withChildren (d l' r' : Tree α) (hd : d.IsNil = false)
    (hkey : d.hash = hashKey d.key) (h1 : hashOk l' = true) (h2 : hashOk r' = true) :
    hashOk (recalculateCount (d.withChildren l' r')) = true := by
  cases d with
  | nil => simp at hd
  | node c h k v l r =>
    simp only [Tree.hash_node, Tree.key_node] at hkey
    simp [Tree.withChildren, recalculateCount_node, hashOk_node, hkey, h1, h2]

lemma deleteOwnNode_inv (m : Tree α) (hc : countOk m = true) (ho : ordered m = true)
    (hh : hashOk m = true) :
    countOk (deleteOwnNode m).1 = true ∧ ordered (deleteOwnNode m).1 = true ∧
      hashOk (deleteOwnNode m).1 = true := by
  cases m with
  | nil => exact ⟨rfl, rfl, rfl⟩
  | node c h k v l r =>
    simp only [countOk_node, Bool.and_eq_true, beq_iff_eq] at hc
    obtain ⟨⟨hcc, hcl⟩, hcr⟩ := hc
    simp only [ordered_node, Bool.and_eq_true] at ho
    obtain ⟨⟨⟨hal, har⟩, hol⟩, hor⟩ := ho
    simp only [hashOk_node, Bool.and_eq_true, beq_iff_eq] at hh
    obtain ⟨⟨hhk, hhl⟩, hhr⟩ := hh
    by_cases hc1 : c = 1
    · -- leaf: the result is the sentinel
      have hstep : deleteOwnNode (.node c h k v l r) = (.nil, true) := by
        simp [deleteOwnNode, Tree.isLeaf, Tree.Size, hc1]
      rw [hstep]
      exact ⟨rfl, rfl, rfl⟩
    · cases l with
      | nil =>
        cases r with
        | nil =>
          simp only [Tree.count_nil] at hcc
          omega
        | node rc rh rk rv rl rr =>
          -- only the right subtree: the node is replaced by it
          have hstep : deleteOwnNode (.node c h k v .nil (.node rc rh rk rv rl rr))
              = (.node rc rh rk rv rl rr, true) := by
            simp [deleteOwnNode, Tree.isLeaf, Tree.Size, hc1, Tree.subtreeCount,
              Tree.hasLeft, Tree.hasRight]
          rw [hstep]
          exact ⟨hcr, hor, hhr⟩
      | node lc lh lk lv ll lr =>
        cases r with
        | nil =>
          -- only the left subtree: the node is replaced by it
          have hstep : deleteOwnNode (.node c h k v (.node lc lh lk lv ll lr) .nil)
              = (.node lc lh lk lv ll lr, true) := by
            simp [deleteOwnNode, Tree.isLeaf, Tree.Size, hc1, Tree.subtreeCount,
              Tree.hasLeft, Tree.hasRight]
          rw [hstep]
          exact ⟨hcl, hol, hhl⟩
        | node rc rh rk rv rl rr =>
          -- two children: replacement from the larger side
          by_cases hlr : lc > rc
          · have hstep : deleteOwnNode
                (.node c h k v (.node lc lh lk lv ll lr) (.node rc rh rk rv rl rr))
                = (recalculateCount
                    ((Tree.node lc lh lk lv ll lr).deleteRightmost.1.withChildren
                      (Tree.node lc lh lk lv ll lr).deleteRightmost.2
                      (.node rc rh rk rv rl rr)), true) := by
              simp [deleteOwnNode, Tree.isLeaf, Tree.Size, hc1, Tree.subtreeCount,
                Tree.hasLeft, Tree.hasRight, hlr]
            rw [hstep]
            obtain ⟨i1, i2, i3, i4, i5, i6⟩ :=
              deleteRightmost_inv (Tree.node lc lh lk lv ll lr) hcl rfl hol
            have hdh : decide ((Tree.node lc lh lk lv ll lr).deleteRightmost.1.hash < h)
                = true := (i5 (fun x => decide (x < h)) hal).1
            have hdh' := of_decide_eq_true hdh
            refine ⟨countOk_recalc_withChildren _ _ _ i1 i2 hcr,
              ordered_recalc_withChildren _ _ _ i1 i4 ?_ i3 hor,
              hashOk_recalc_withChildren _ _ _ i1 (i6 hhl).2 (i6 hhl).1 hhr⟩
            refine allHashes_imp _ ?_ har
            intro x hx
            simp only [decide_eq_true_eq] at hx ⊢
            omega
          · have hstep : deleteOwnNode
                (.node c h k v (.node lc lh lk lv ll lr) (.node rc rh rk rv rl rr))
                = (recalculateCount
                    ((Tree.node rc rh rk rv rl rr).deleteLeftmost.1.withChildren
                      (.node lc lh lk lv ll lr)
                      (Tree.node rc rh rk rv rl rr).deleteLeftmost.2), true) := by
              simp [deleteOwnNode, Tree.isLeaf, Tree.Size, hc1, Tree.subtreeCount,
                Tree.hasLeft, Tree.hasRight, hlr]
            rw [hstep]
            obtain ⟨i1, i2, i3, i4, i5, i6⟩ :=
              deleteLeftmost_inv (Tree.node rc rh rk rv rl rr) hcr rfl hor
            have hdh : decide (h < (Tree.node rc rh rk rv rl rr).deleteLeftmost.1.hash)
                = true := (i5 (fun x => decide (h < x)) har).1
            have hdh' := of_decide_eq_true hdh
            refine ⟨countOk_recalc_withChildren _ _ _ i1 hcl i2,
              ordered_recalc_withChildren _ _ _ i1 ?_ i4 hol i3,
              hashOk_recalc_withChildren _ _ _ i1 (i6 hhr).2 hhl (i6 hhr).1⟩
            refine allHashes_imp _ ?_ hal
            intro x hx
            simp only [decide_eq_true_eq] at hx ⊢
            omega

lemma deleteLowLevel_inv (m : Tree α) (hash : Nat) (hc : countOk m = true)
    (ho : ordered m = true) (hh : hashOk m = true) :
    countOk (deleteLowLevel m hash).1 = true ∧ ordered (deleteLowLevel m hash).1 = true ∧
      hashOk (deleteLowLevel m hash).1 = true := by
  cases m with
  | nil => exact ⟨rfl, rfl, rfl⟩
  | node c h k v l r =>
    by_cases h1 : hash < h
    · by_cases hf : (deleteLowLevel l hash).2
      · have hstep : deleteLowLevel (.node c h k v l r) hash
            = deleteOwnNode (.node c h k v l r) := by
          simp [deleteLowLevel, h1, hf]
        rw [hstep]
        exact deleteOwnNode_inv _ hc ho hh
      · have hstep : deleteLowLevel (.node c h k v l r) hash
            = (.node c h k v l r, false) := by
          simp only [Bool.not_eq_true] at hf
          simp [deleteLowLevel, h1, hf]
        rw [hstep]
        exact ⟨hc, ho, hh⟩
    · by_cases h2 : hash > h
      · by_cases hf : (deleteLowLevel r hash).2
        · have hstep : deleteLowLevel (.node c h k v l r) hash
              = deleteOwnNode (.node c h k v l r) := by
            simp [deleteLowLevel, h1, h2, hf]
          rw [hstep]
          exact deleteOwnNode_inv _ hc ho hh
        · have hstep : deleteLowLevel (.node c h k v l r) hash
              = (.node c h k v l r, false) := by
            simp only [Bool.not_eq_true] at hf
            simp [deleteLowLevel, h1, h2, hf]
          rw [hstep]
          exact ⟨hc, ho, hh⟩
      · have hstep : deleteLowLevel (.node c h k v l r) hash
            = deleteOwnNode (.node c h k v l r) := by
          simp [deleteLowLevel, h1, h2]
        rw [hstep]
        exact deleteOwnNode_inv _ hc ho hh

/-- Every map reachable through the public API satisfies the three
structural invariants: correct counts, strict hash ordering, and stored
hashes matching the stored keys. -/
lemma reachable_inv {m : Tree α} (h : Reachable m) :
    ordered m = true ∧ countOk m = true ∧ hashOk m = true := by
  induction h with
  | empty => exact ⟨rfl, rfl, rfl⟩
  | set m k v _ ih =>
    exact ⟨ordered_setLowLevel m (hashKey k) k v ih.1,
      countOk_setLowLevel m (hashKey k) k v ih.2.1,
      hashOk_setLowLevel m k v ih.2.2⟩
  | delete m k _ ih =>
    obtain ⟨hc, ho, hh⟩ := deleteLowLevel_inv m (hashKey k) ih.2.1 ih.1 ih.2.2
    exact ⟨ho, hc, hh⟩

/-! ### In-order traversal lemmas (for `ForEach`/`Keys` and the deletion
replacement policy) -/

@[simp] lemma forEachSeq_nil : (Tree.nil : Tree α).forEachSeq = [] := rfl

lemma forEachSeq_node (c h : Nat) (k : String) (v : α) (l r : Tree α) :
    (Tree.node c h k v l r).forEachSeq = l.forEachSeq ++ (k, v) :: r.forEachSeq := by
  cases l <;> cases r <;> simp [Tree.forEachSeq]

lemma forEachSeq_ne_nil (m : Tree α) (hm : m.IsNil = false) : m.forEachSeq ≠ [] := by
  cases m with
  | nil => simp at hm
  | node c h k v l r => rw [forEachSeq_node]; simp

lemma length_forEachSeq (m : Tree α) (hc : countOk m = true) :
    m.forEachSeq.length = m.count := by
  induction m with
  | nil => rfl
  | node c h k v l r ihl ihr =>
    simp only [countOk_node, Bool.and_eq_true, beq_iff_eq] at hc
    rw [forEachSeq_node]
    simp only [List.length_append, List.length_cons, Tree.count_node,
      ihl hc.1.2, ihr hc.2]
    omega

/-- The node hashes in in-order sequence. -/
def hashesInorder : Tree α → List Nat
  | .nil => []
  | .node _ h _ _ l r => hashesInorder l ++ h :: hashesInorder r

lemma allHashes_iff_mem (p : Nat → Bool) (m : Tree α) :
    allHashes p m = true ↔ ∀ x ∈ hashesInorder m, p x = true := by
  induction m with
  | nil => simp [hashesInorder, allHashes]
  | node c h k v l r ihl ihr =>
    simp only [allHashes_node, Bool.and_eq_true, ihl, ihr, hashesInorder,
      List.mem_append, List.mem_cons]
    constructor
    · rintro ⟨⟨hph, hpl⟩, hpr⟩ x (hx | hx | hx)
      exacts [hpl x hx, hx ▸ hph, hpr x hx]
    · intro hall
      exact ⟨⟨hall h (Or.inr (Or.inl rfl)), fun x hx => hall x (Or.inl hx)⟩,
        fun x hx => hall x (Or.inr (Or.inr hx))⟩

lemma pairwise_hashesInorder (m : Tree α) (ho : ordered m = true) :
    (hashesInorder m).Pairwise (· < ·) := by
  induction m with
  | nil => simp [hashesInorder]
  | node c h k v l r ihl ihr =>
    simp only [ordered_node, Bool.and_eq_true] at ho
    obtain ⟨⟨⟨hal, har⟩, hol⟩, hor⟩ := ho
    simp only [hashesInorder]
    rw [List.pairwise_append]
    refine ⟨ihl hol, ?_, ?_⟩
    · rw [List.pairwise_cons]
      refine ⟨?_, ihr hor⟩
      intro x hx
      exact of_decide_eq_true ((allHashes_iff_mem _ r).mp har x hx)
    · intro a ha b hb
      have ha' : a < h := of_decide_eq_true ((allHashes_iff_mem _ l).mp hal a ha)
      rcases List.mem_cons.mp hb with rfl | hb'
      · exact ha'
      · have hb'' : h < b := of_decide_eq_true ((allHashes_iff_mem _ r).mp har b hb')
        omega

lemma map_hashKey_forEachSeq (m : Tree α) (hh : hashOk m = true) :
    m.forEachSeq.map (fun p => hashKey p.1) = hashesInorder m := by
  induction m with
  | nil => rfl
  | node c h k v l r ihl ihr =>
    simp only [hashOk_node, Bool.and_eq_true, beq_iff_eq] at hh
    rw [forEachSeq_node]
    simp only [List.map_append, List.map_cons, hashesInorder, ihl hh.1.2, ihr hh.2]
    rw [hh.1.1]

lemma deleteRightmost_seq (m : Tree α) :
    countOk m = true → m.IsNil = false →
      m.deleteRightmost.1.rootPair = m.forEachSeq.getLast? ∧
      m.deleteRightmost.2.forEachSeq = m.forEachSeq.dropLast := by
  induction m with
  | nil => intro _ hnil; simp at hnil
  | node c h k v l r ihl ihr =>
    intro hc _
    clear ihl
    simp only [countOk_node, Bool.and_eq_true, beq_iff_eq] at hc
    obtain ⟨⟨hcc, hcl⟩, hcr⟩ := hc
    by_cases hc1 : c = 1
    · have hln : l = .nil := nil_of_count_zero l hcl (by omega)
      have hrn : r = .nil := nil_of_count_zero r hcr (by omega)
      subst hln hrn hc1
      exact ⟨rfl, rfl⟩
    · by_cases hrn : r.IsNil
      · have hr0 := Tree.eq_nil_of_IsNil hrn
        subst hr0
        have hstep : (Tree.node c h k v l .nil).deleteRightmost
            = (.node c h k v .nil .nil, l) := by
          simp [Tree.deleteRightmost, hc1]
        rw [hstep, forEachSeq_node, forEachSeq_nil]
        exact ⟨(List.getLast?_concat _).symm, List.dropLast_concat.symm⟩
      · have hrne : r.IsNil = false := by simpa using hrn
        obtain ⟨ih1, ih2⟩ := ihr hcr hrne
        have hstep : (Tree.node c h k v l r).deleteRightmost
            = (r.deleteRightmost.1,
               .node (l.count + r.deleteRightmost.2.count + 1) h k v l
                 r.deleteRightmost.2) := by
          simp [Tree.deleteRightmost, hc1, hrne, recalculateCount_node]
        have hrs : r.forEachSeq ≠ [] := forEachSeq_ne_nil r hrne
        rw [hstep, forEachSeq_node, forEachSeq_node]
        have hassoc : l.forEachSeq ++ (k, v) :: r.forEachSeq
            = (l.forEachSeq ++ [(k, v)]) ++ r.forEachSeq := by simp
        constructor
        · rw [ih1, hassoc, List.getLast?_append_of_ne_nil _ hrs]
        · rw [ih2, hassoc, List.dropLast_append_of_ne_nil _ hrs]
          simp

lemma deleteLeftmost_seq (m : Tree α) :
    countOk m = true → m.IsNil = false →
      m.deleteLeftmost.1.rootPair = m.forEachSeq.head? ∧
      m.deleteLeftmost.2.forEachSeq = m.forEachSeq.tail := by
  induction m with
  | nil => intro _ hnil; simp at hnil
  | node c h k v l r ihl ihr =>
    intro hc _
    clear ihr
    simp only [countOk_node, Bool.and_eq_true, beq_iff_eq] at hc
    obtain ⟨⟨hcc, hcl⟩, hcr⟩ := hc
    by_cases hc1 : c = 1
    · have hln : l = .nil := nil_of_count_zero l hcl (by omega)
      have hrn : r = .nil := nil_of_count_zero r hcr (by omega)
      subst hln hrn hc1
      exact ⟨rfl, rfl⟩
    · by_cases hln : l.IsNil
      · have hl0 := Tree.eq_nil_of_IsNil hln
        subst hl0
        have hstep : (Tree.node c h k v .nil r).deleteLeftmost
            = (.node 1 h k v .nil .nil, r) := by
          simp [Tree.deleteLeftmost, hc1]
        rw [hstep, forEachSeq_node, forEachSeq_nil]
        exact ⟨rfl, rfl⟩
      · have hlne : l.IsNil = false := by simpa using hln
        obtain ⟨ih1, ih2⟩ := ihl hcl hlne
        have hstep : (Tree.node c h k v l r).deleteLeftmost
            = (l.deleteLeftmost.1,
               .node (l.deleteLeftmost.2.count + r.count + 1) h k v
                 l.deleteLeftmost.2 r) := by
          simp [Tree.deleteLeftmost, hc1, hlne, recalculateCount_node]
        have hls : l.forEachSeq ≠ [] := forEachSeq_ne_nil l hlne
        rw [hstep, forEachSeq_node, forEachSeq_node]
        constructor
        · rw [ih1, List.head?_append_of_ne_nil _ hls]
        · rw [ih2, List.tail_append_of_ne_nil hls]

/-! ### The heap model (map.go with the node store explicit).

The Go code builds trees from heap-allocated nodes: `clone()` allocates,
field assignments write the fresh node, and published nodes are never
written again.  To state immutability of the receiver across later
operations, this second embedding makes the store explicit: a heap is a
list of node records, a map value is an index into it, `clone` appends a
copy, and each field assignment of the source becomes a write at the
cloned index.  Index 0 is the shared sentinel `nilMap`; its child fields
hold 0, the self-reference of the source.  `IsNil`'s pointer comparison
with `nilMap` becomes `i == 0`.  The recursions are not structural in the
heap, so every function takes a fuel argument; the theorems below hold for
every fuel value, so no sufficiency argument is needed. -/

structure HNode (α : Type) where
  count : Nat
  hash : Nat
  key : String
  value : α
  left : Nat
  right : Nat
deriving DecidableEq

/-- The sentinel node record: all fields zero, children self-referential. -/
def sentinel [Inhabited α] : HNode α := ⟨0, 0, "", default, 0, 0⟩

/-- Read a node record; on well-formed heaps reads are always in range. -/
def hget [Inhabited α] (hp : List (HNode α)) (i : Nat) : HNode α :=
  hp.getD i sentinel

/-- Write a node record. -/
def hset (hp : List (HNode α)) (i : Nat) (n : HNode α) : List (HNode α) :=
  hp.set i n

/-- The initial heap: only the sentinel; `NewMap` is index 0. -/
def initHeap [Inhabited α] : List (HNode α) := [sentinel]

/-- `clone` of map.go: append a copy of node `i`, returning the new index. -/
def cloneH [Inhabited α] (hp : List (HNode α)) (i : Nat) : List (HNode α) × Nat :=
  (hp ++ [hget hp i], hp.length)

/-- `recalculateCount` of map.go: recompute node `m`'s count from its
children's stored counts and write it back. -/
def recalculateCountH [Inhabited α] (hp : List (HNode α)) (m : Nat) : List (HNode α) :=
  let n := hget hp m
  let cl := if !(n.left == 0) then (hget hp n.left).count else 0
  let cr := if !(n.right == 0) then (hget hp n.right).count else 0
  hset hp m ⟨cl + cr + 1, n.hash, n.key, n.value, n.left, n.right⟩

/-- `setLowLevel` of map.go on the heap. -/
def setLowLevelH [Inhabited α] :
    Nat → List (HNode α) → Nat → Nat → String → α → List (HNode α) × Nat
  | 0, hp, i, _, _, _ => (hp, i) -- out of fuel: unreachable with enough fuel
  | fuel + 1, hp, i, hash, key, value =>
    if i == 0 then
      -- m := self.clone(); m.count = 1; m.hash/key/value set
      let c := cloneH hp i
      let n := hget hp i
      (hset c.1 c.2 ⟨1, hash, key, value, n.left, n.right⟩, c.2)
    else
      let n := hget hp i
      if hash < n.hash then
        -- m := self.clone(); m.left = setLowLevel(self.left, ...); recalculateCount(m)
        let c := cloneH hp i
        let s := setLowLevelH fuel c.1 n.left hash key value
        let m := hget s.1 c.2
        (recalculateCountH (hset s.1 c.2 ⟨m.count, m.hash, m.key, m.value, s.2, m.right⟩)
          c.2, c.2)
      else if hash > n.hash then
        let c := cloneH hp i
        let s := setLowLevelH fuel c.1 n.right hash key value
        let m := hget s.1 c.2
        (recalculateCountH (hset s.1 c.2 ⟨m.count, m.hash, m.key, m.value, m.left, s.2⟩)
          c.2, c.2)
      else
        -- replacing a key's previous value
        let c := cloneH hp i
        let m := hget c.1 c.2
        (hset c.1 c.2 ⟨m.count, m.hash, m.key, value, m.left, m.right⟩, c.2)

/-- `lookupLowLevel` of map.go on the heap. -/
def lookupLowLevelH [Inhabited α] :
    Nat → List (HNode α) → Nat → Nat → Option α
  | 0, _, _, _ => none -- out of fuel: unreachable with enough fuel
  | fuel + 1, hp, i, hash =>
    if i == 0 then none
    else
      let n := hget hp i
      if hash < n.hash then lookupLowLevelH fuel hp n.left hash
      else if hash > n.hash then lookupLowLevelH fuel hp n.right hash
      else some n.value

/-- `subtreeCount` of map.go on the heap. -/
def subtreeCountH [Inhabited α] (hp : List (HNode α)) (i : Nat) : Nat :=
  let n := hget hp i
  (if !(n.left == 0) then 1 else 0) + (if !(n.right == 0) then 1 else 0)

/-- `deleteRightmost` of map.go on the heap; returns (heap, deleted, rest). -/
def deleteRightmostH [Inhabited α] :
    Nat → List (HNode α) → Nat → List (HNode α) × Nat × Nat
  | 0, hp, i => (hp, i, 0) -- out of fuel: unreachable with enough fuel
  | fuel + 1, hp, i =>
    let n := hget hp i
    if n.count == 1 then (hp, i, 0) -- isLeaf: return m, nilMap
    else if !(n.right == 0) then
      let d := deleteRightmostH fuel hp n.right
      let c := cloneH d.1 i
      let m := hget c.1 c.2
      (recalculateCountH (hset c.1 c.2 ⟨m.count, m.hash, m.key, m.value, m.left, d.2.2⟩)
        c.2, d.2.1, c.2)
    else
      -- deleted := m.clone(); deleted.left = nilMap (count not reset here)
      let c := cloneH hp i
      let m := hget c.1 c.2
      (hset c.1 c.2 ⟨m.count, m.hash, m.key, m.value, 0, m.right⟩, c.2, n.left)

/-- `deleteLeftmost` of map.go on the heap; returns (heap, deleted, rest). -/
def deleteLeftmostH [Inhabited α] :
    Nat → List (HNode α) → Nat → List (HNode α) × Nat × Nat
  | 0, hp, i => (hp, i, 0) -- out of fuel: unreachable with enough fuel
  | fuel + 1, hp, i =>
    let n := hget hp i
    if n.count == 1 then (hp, i, 0) -- isLeaf: return m, nilMap
    else if !(n.left == 0) then
      let d := deleteLeftmostH fuel hp n.left
      let c := cloneH d.1 i
      let m := hget c.1 c.2
      (recalculateCountH (hset c.1 c.2 ⟨m.count, m.hash, m.key, m.value, d.2.2, m.right⟩)
        c.2, d.2.1, c.2)
    else
      -- deleted := m.clone(); deleted.count = 1; deleted.right = nilMap
      let c := cloneH hp i
      let m := hget c.1 c.2
      (hset c.1 c.2 ⟨1, m.hash, m.key, m.value, m.left, 0⟩, c.2, n.right)

/-- The delete-own-node tail of `deleteLowLevel` (map.go lines 185-213). -/
def deleteOwnNodeH [Inhabited α] (fuel : Nat) (hp : List (HNode α)) (i : Nat) :
    List (HNode α) × Nat × Bool :=
  let n := hget hp i
  if n.count == 1 then (hp, 0, true) -- isLeaf: return nilMap, true
  else if subtreeCountH hp i == 1 then
    if !(n.left == 0) then (hp, n.left, true) else (hp, n.right, true)
  else if (hget hp n.left).count > (hget hp n.right).count then
    -- make left side smaller
    let d := deleteRightmostH fuel hp n.left
    let c := cloneH d.1 d.2.1
    let m := hget c.1 c.2
    (recalculateCountH (hset c.1 c.2 ⟨m.count, m.hash, m.key, m.value, d.2.2, n.right⟩)
      c.2, c.2, true)
  else
    -- make right side smaller
    let d := deleteLeftmostH fuel hp n.right
    let c := cloneH d.1 d.2.1
    let m := hget c.1 c.2
    (recalculateCountH (hset c.1 c.2 ⟨m.count, m.hash, m.key, m.value, n.left, d.2.2⟩)
      c.2, c.2, true)

/-- `deleteLowLevel` of map.go on the heap, with the source's fall-through:
after a successful recursive delete the rebuilt node is cloned and written
but never returned (it becomes garbage), and control reaches the
delete-own-node code. -/
def deleteLowLevelH [Inhabited α] :
    Nat → List (HNode α) → Nat → Nat → List (HNode α) × Nat × Bool
  | 0, hp, i, _ => (hp, i, false) -- out of fuel: unreachable with enough fuel
  | fuel + 1, hp, i, hash =>
    if i == 0 then (hp, i, false)
    else
      let n := hget hp i
      if hash < n.hash then
        let d := deleteLowLevelH fuel hp n.left hash
        if !d.2.2 then (d.1, i, false)
        else
          -- the rebuilt newMap, never returned by the source
          let c := cloneH d.1 i
          let m := hget c.1 c.2
          let g := recalculateCountH
            (hset c.1 c.2 ⟨m.count, m.hash, m.key, m.value, d.2.1, m.right⟩) c.2
          deleteOwnNodeH fuel g i
      else if hash > n.hash then
        let d := deleteLowLevelH fuel hp n.right hash
        if !d.2.2 then (d.1, i, false)
        else
          let c := cloneH d.1 i
          let m := hget c.1 c.2
          let g := recalculateCountH
            (hset c.1 c.2 ⟨m.count, m.hash, m.key, m.value, m.left, d.2.1⟩) c.2
          deleteOwnNodeH fuel g i
      else
        deleteOwnNodeH fuel hp i

/-- `Set` of map.go on the heap. -/
def SetH [Inhabited α] (fuel : Nat) (hp : List (HNode α)) (i : Nat) (k : String)
    (v : α) : List (HNode α) × Nat :=
  setLowLevelH fuel hp i (hashKey k) k v

/-- `Delete` of map.go on the heap. -/
def DeleteH [Inhabited α] (fuel : Nat) (hp : List (HNode α)) (i : Nat) (k : String) :
    List (HNode α) × Nat :=
  ((deleteLowLevelH fuel hp i (hashKey k)).1, (deleteLowLevelH fuel hp i (hashKey k)).2.1)

/-- `Lookup` of map.go on the heap. -/
def LookupH [Inhabited α] (fuel : Nat) (hp : List (HNode α)) (i : Nat) (k : String) :
    Option α :=
  lookupLowLevelH fuel hp i (hashKey k)

/-- `Size` of map.go on the heap: the stored count of the root node. -/
def SizeH [Inhabited α] (hp : List (HNode α)) (i : Nat) : Nat := (hget hp i).count

/-- One mutating public-API call. -/
inductive MOp (α : Type) where
  | setOp (k : String) (v : α) : MOp α
  | delOp (k : String) : MOp α

/-- Apply one operation (with its fuel) to a heap and root index. -/
def applyOpH [Inhabited α] (s : List (HNode α) × Nat) : MOp α × Nat → List (HNode α) × Nat
  | (.setOp k v, fuel) => SetH fuel s.1 s.2 k v
  | (.delOp k, fuel) => DeleteH fuel s.1 s.2 k

/-- Apply a sequence of operations. -/
def runOpsH [Inhabited α] (s : List (HNode α) × Nat) (ops : List (MOp α × Nat)) :
    List (HNode α) × Nat :=
  ops.foldl applyOpH s

/-! ### Frame lemmas: no operation ever writes an index that existed before
it started, so every heap the operations produce extends its input. -/

lemma hget_append_lt [Inhabited α] (hp : List (HNode α)) (x : HNode α) {j : Nat}
    (hj : j < hp.length) : hget (hp ++ [x]) j = hget hp j := by
  simp [hget, List.getD_eq_getElem?_getD, List.getElem?_append_left hj]

lemma hget_set_ne [Inhabited α] (hp : List (HNode α)) (i j : Nat) (x : HNode α)
    (hij : i ≠ j) : hget (hset hp i x) j = hget hp j := by
  simp [hget, hset, List.getD_eq_getElem?_getD, List.getElem?_set_ne hij]

/-- `hp'` has every node `hp` had, unchanged, and possibly more. -/
def Extends [Inhabited α] (hp hp' : List (HNode α)) : Prop :=
  hp.length ≤ hp'.length ∧ ∀ j, j < hp.length → hget hp' j = hget hp j

lemma extends_refl [Inhabited α] (hp : List (HNode α)) : Extends hp hp :=
  ⟨Nat.le_refl _, fun _ _ => rfl⟩

lemma extends_trans [Inhabited α] {h1 h2 h3 : List (HNode α)} (a : Extends h1 h2)
    (b : Extends h2 h3) : Extends h1 h3 :=
  ⟨Nat.le_trans a.1 b.1, fun j hj => (b.2 j (Nat.lt_of_lt_of_le hj a.1)).trans (a.2 j hj)⟩

lemma extends_push [Inhabited α] (hp : List (HNode α)) (x : HNode α) :
    Extends hp (hp ++ [x]) := by
  refine ⟨by simp, fun j hj => hget_append_lt hp x hj⟩

lemma extends_hset [Inhabited α] {hp0 hp : List (HNode α)} (hx : Extends hp0 hp)
    {i : Nat} (hi : hp0.length ≤ i) (x : HNode α) : Extends hp0 (hset hp i x) := by
  refine ⟨?_, ?_⟩
  · simpa [hset] using hx.1
  · intro j hj
    rw [hget_set_ne hp i j x (by omega), hx.2 j hj]

lemma extends_clone [Inhabited α] {hp0 hp : List (HNode α)} (hx : Extends hp0 hp)
    (i : Nat) : Extends hp0 (cloneH hp i).1 :=
  extends_trans hx (extends_push hp _)

lemma extends_recalc [Inhabited α] {hp0 hp : List (HNode α)} (hx : Extends hp0 hp)
    {m : Nat} (hm : hp0.length ≤ m) : Extends hp0 (recalculateCountH hp m) :=
  extends_hset hx hm _

lemma setLowLevelH_extends [Inhabited α] :
    ∀ (fuel : Nat) (hp : List (HNode α)) (i hash : Nat) (k : String) (v : α),
      Extends hp (setLowLevelH fuel hp i hash k v).1 := by
  intro fuel
  induction fuel with
  | zero => intro hp i hash k v; exact extends_refl hp
  | succ fuel ih =>
    intro hp i hash k v
    simp only [setLowLevelH]
    split_ifs with h0 h1 h2
    · exact extends_hset (extends_push hp _) (Nat.le_refl _) _
    · exact extends_recalc
        (extends_hset (extends_trans (extends_push hp _) (ih _ _ _ _ _))
          (Nat.le_refl _) _) (Nat.le_refl _)
    · exact extends_recalc
        (extends_hset (extends_trans (extends_push hp _) (ih _ _ _ _ _))
          (Nat.le_refl _) _) (Nat.le_refl _)
    · exact extends_hset (extends_push hp _) (Nat.le_refl _) _

lemma deleteRightmostH_extends [Inhabited α] :
    ∀ (fuel : Nat) (hp : List (HNode α)) (i : Nat),
      Extends hp (deleteRightmostH fuel hp i).1 := by
  intro fuel
  induction fuel with
  | zero => intro hp i; exact extends_refl hp
  | succ fuel ih =>
    intro hp i
    simp only [deleteRightmostH]
    split_ifs with h0 h1
    · exact extends_refl hp
    · exact extends_recalc
        (extends_hset (extends_clone (ih hp _) i) (ih hp _).1 _) (ih hp _).1
    · exact extends_hset (extends_push hp _) (Nat.le_refl _) _

lemma deleteLeftmostH_extends [Inhabited α] :
    ∀ (fuel : Nat) (hp : List (HNode α)) (i : Nat),
      Extends hp (deleteLeftmostH fuel hp i).1 := by
  intro fuel
  induction fuel with
  | zero => intro hp i; exact extends_refl hp
  | succ fuel ih =>
    intro hp i
    simp only [deleteLeftmostH]
    split_ifs with h0 h1
    · exact extends_refl hp
    · exact extends_recalc
        (extends_hset (extends_clone (ih hp _) i) (ih hp _).1 _) (ih hp _).1
    · exact extends_hset (extends_push hp _) (Nat.le_refl _) _

lemma deleteOwnNodeH_extends [Inhabited α] (fuel : Nat) (hp : List (HNode α))
    (i : Nat) : Extends hp (deleteOwnNodeH fuel hp i).1 := by
  simp only [deleteOwnNodeH]
  split_ifs with h0 h1 h2 h3
  · exact extends_refl hp
  · exact extends_refl hp
  · exact extends_refl hp
  · exact extends_recalc
      (extends_hset (extends_clone (deleteRightmostH_extends fuel hp _) _)
        (deleteRightmostH_extends fuel hp _).1 _)
      (deleteRightmostH_extends fuel hp _).1
  · exact extends_recalc
      (extends_hset (extends_clone (deleteLeftmostH_extends fuel hp _) _)
        (deleteLeftmostH_extends fuel hp _).1 _)
      (deleteLeftmostH_extends fuel hp _).1

lemma deleteLowLevelH_extends [Inhabited α] :
    ∀ (fuel : Nat) (hp : List (HNode α)) (i hash : Nat),
      Extends hp (deleteLowLevelH fuel hp i hash).1 := by
  intro fuel
  induction fuel with
  | zero => intro hp i hash; exact extends_refl hp
  | succ fuel ih =>
    intro hp i hash
    simp only [deleteLowLevelH]
    split_ifs with h0 h1 h2 h3 h4
    · exact extends_refl hp
    · exact ih hp _ hash
    · exact extends_trans
        (extends_recalc
          (extends_hset (extends_clone (ih hp _ hash) i) (ih hp _ hash).1 _)
          (ih hp _ hash).1)
        (deleteOwnNodeH_extends fuel _ i)
    · exact ih hp _ hash
    · exact extends_trans
        (extends_recalc
          (extends_hset (extends_clone (ih hp _ hash) i) (ih hp _ hash).1 _)
          (ih hp _ hash).1)
        (deleteOwnNodeH_extends fuel _ i)
    · exact deleteOwnNodeH_extends fuel hp i

lemma applyOpH_extends [Inhabited α] (s : List (HNode α) × Nat) (op : MOp α × Nat) :
    Extends s.1 (applyOpH s op).1 := by
  rcases op with ⟨op, fuel⟩
  cases op with
  | setOp k v => exact setLowLevelH_extends fuel s.1 s.2 (hashKey k) k v
  | delOp k => exact deleteLowLevelH_extends fuel s.1 s.2 (hashKey k)

lemma runOpsH_extends [Inhabited α] (ops : List (MOp α × Nat)) :
    ∀ s : List (HNode α) × Nat, Extends s.1 (runOpsH s ops).1 := by
  induction ops with
  | nil => intro s; exact extends_refl _
  | cons op ops ih =>
    intro s
    exact extends_trans (applyOpH_extends s op) (ih (applyOpH s op))

/-- Well-formed heap: every stored child index is in range. -/
def WfHeap [Inhabited α] (hp : List (HNode α)) : Prop :=
  ∀ j, j < hp.length → (hget hp j).left < hp.length ∧ (hget hp j).right < hp.length

instance [Inhabited α] (hp : List (HNode α)) : Decidable (WfHeap hp) :=
  inferInstanceAs (Decidable (∀ j, j < hp.length →
    (hget hp j).left < hp.length ∧ (hget hp j).right < hp.length))

/-- A lookup from a root that already existed reads only nodes that already
existed, so it is unchanged by any heap extension. -/
lemma lookupLowLevelH_agree [Inhabited α] {hp hp' : List (HNode α)} (hwf : WfHeap hp)
    (hx : Extends hp hp') :
    ∀ (fuel i hash : Nat), i < hp.length →
      lookupLowLevelH fuel hp' i hash = lookupLowLevelH fuel hp i hash := by
  intro fuel
  induction fuel with
  | zero => intros; rfl
  | succ fuel ih =>
    intro i hash hi
    simp only [lookupLowLevelH]
    rw [hx.2 i hi]
    by_cases h0 : i = 0
    · simp [h0]
    · have hz : (i == 0) = false := by simpa using h0
      simp only [hz]
      obtain ⟨hl, hr⟩ := hwf i hi
      by_cases h1 : hash < (hget hp i).hash
      · simp only [h1, if_true]
        exact ih _ hash hl
      · simp only [h1, if_false]
        by_cases h2 : hash > (hget hp i).hash
        · simp only [h2, if_true]
          exact ih _ hash hr
        · simp only [h2, if_false]

/-- Whether `hash` occurs in the tree rooted at `i` (heap model). -/
def hashMemH [Inhabited α] : Nat → List (HNode α) → Nat → Nat → Bool
  | 0, _, _, _ => false
  | fuel + 1, hp, i, hash =>
    if i == 0 then false
    else
      let n := hget hp i
      hash == n.hash || hashMemH fuel hp n.left hash || hashMemH fuel hp n.right hash

/-- The not-found path of `Delete` allocates nothing and returns the
receiver itself: heap and root index come back unchanged. -/
lemma deleteLowLevelH_not_found [Inhabited α] :
    ∀ (fuel : Nat) (hp : List (HNode α)) (i hash : Nat),
      hashMemH fuel hp i hash = false →
      deleteLowLevelH fuel hp i hash = (hp, i, false) := by
  intro fuel
  induction fuel with
  | zero => intro hp i hash _; rfl
  | succ fuel ih =>
    intro hp i hash hmem
    simp only [hashMemH] at hmem
    by_cases h0 : i = 0
    · simp [deleteLowLevelH, h0]
    · have hz : (i == 0) = false := by simpa using h0
      rw [if_neg (by simp [h0])] at hmem
      simp only [Bool.or_eq_false_iff, beq_eq_false_iff_ne, ne_eq] at hmem
      obtain ⟨⟨hne, hml⟩, hmr⟩ := hmem
      simp only [deleteLowLevelH, hz]
      by_cases h1 : hash < (hget hp i).hash
      · simp [h1, ih hp _ hash hml]
      · by_cases h2 : hash > (hget hp i).hash
        · simp [h1, h2, ih hp _ hash hmr]
        · omega

lemma count_pos (m : Tree α) (hc : countOk m = true) (hm : m.IsNil = false) :
    0 < m.count := by
  cases m with
  | nil => simp at hm
  | node c h k v l r =>
    simp only [countOk_node, Bool.and_eq_true, beq_iff_eq] at hc
    simp only [Tree.count_node]
    omega

/-! ### The claims -/

/-- C1: the claim says `m.Set(k, v).Delete(k).Lookup(k)` returns
`found == false`.  The code contradicts it: `deleteLowLevel` has no
`return` after rebuilding a subtree, so control falls through and deletes
the node at the top of the recursion instead of the found one.  Concretely,
after `Set("a", 0).Set("b", 1)`, deleting `"b"` removes `"a"`:
`Lookup("b")` still returns `(1, true)` while `Lookup("a")` is gone.
`Size` does decrease by exactly 1. -/
theorem delete_falls_through_bug :
    ((((NewMap : Tree Nat).Set "a" 0).Set "b" 1).Delete "b").Lookup "b" = some 1 ∧
    ((((NewMap : Tree Nat).Set "a" 0).Set "b" 1).Delete "b").Lookup "a" = none ∧
    ((((NewMap : Tree Nat).Set "a" 0).Set "b" 1).Delete "b").Size = 1 := by
  refine ⟨by decide, by decide, by decide⟩

/-- C2: deleting a key whose hash occurs nowhere in the map returns the
original map value itself, unchanged — `deleteLowLevel` returns `self`
without cloning anything on the not-found path. -/
theorem delete_absent_hash_identity (m : Tree α) (k : String)
    (h : hashMem (hashKey k) m = false) : m.Delete k = m := by
  unfold Tree.Delete
  rw [deleteLowLevel_not_found m (hashKey k) h]

/-- Witness for C2 at a concrete input. -/
theorem delete_absent_hash_identity_witness :
    hashMem (hashKey "b") ((NewMap : Tree Nat).Set "a" 0) = false ∧
    ((NewMap : Tree Nat).Set "a" 0).Delete "b" = (NewMap : Tree Nat).Set "a" 0 :=
  ⟨by decide, delete_absent_hash_identity _ "b" (by decide)⟩

/-- C3: immutability.  In the heap model, after `m2 = m.Set(k, v)` and any
further operations on `m2`, every `Lookup` and `Size` on the original root
`r` reads exactly what it read before the `Set`: no operation ever writes a
node that existed when it started. -/
theorem set_preserves_original [Inhabited α] (hp : List (HNode α)) (r : Nat)
    (k : String) (v : α) (fuel : Nat) (ops : List (MOp α × Nat)) (f : Nat)
    (j : String) (hwf : WfHeap hp) (hr : r < hp.length) :
    LookupH f (runOpsH (SetH fuel hp r k v) ops).1 r j = LookupH f hp r j ∧
    SizeH (runOpsH (SetH fuel hp r k v) ops).1 r = SizeH hp r := by
  have hx : Extends hp (runOpsH (SetH fuel hp r k v) ops).1 :=
    extends_trans (setLowLevelH_extends fuel hp r (hashKey k) k v)
      (runOpsH_extends ops (SetH fuel hp r k v))
  exact ⟨lookupLowLevelH_agree hwf hx f r (hashKey j) hr,
    by simp only [SizeH, hx.2 r hr]⟩

/-- Witness for C3: set `"a"` on the empty map, then delete it from the new
version; the old root still answers as before. -/
theorem set_preserves_original_witness :
    (LookupH 5 (runOpsH (SetH 5 (initHeap : List (HNode Nat)) 0 "a" 7)
        [(MOp.delOp "a", 5)]).1 0 "a"
      = LookupH 5 (initHeap : List (HNode Nat)) 0 "a") ∧
    SizeH (runOpsH (SetH 5 (initHeap : List (HNode Nat)) 0 "a" 7)
        [(MOp.delOp "a", 5)]).1 0 = SizeH (initHeap : List (HNode Nat)) 0 :=
  set_preserves_original initHeap 0 "a" 7 5 [(MOp.delOp "a", 5)] 5 "a"
    (by decide) (by decide)

/-- C4: round trip — `m.Set(k, v).Lookup(k) == (v, true)` for all maps,
keys and values. -/
theorem set_lookup_roundtrip (m : Tree α) (k : String) (v : α) :
    (m.Set k v).Lookup k = some v :=
  lookupLowLevel_setLowLevel m (hashKey k) k v

/-- C5: every map built by the public API is a strict BST ordered by hash,
and every stored count equals `1 + count(left) + count(right)`. -/
theorem reachable_bst_and_count_invariant (m : Tree α) (h : Reachable m) :
    ordered m = true ∧ countOk m = true :=
  ⟨(reachable_inv h).1, (reachable_inv h).2.1⟩

/-- Witness for C5 on a concrete map built by two Sets and a Delete. -/
theorem reachable_bst_and_count_invariant_witness :
    ordered ((((NewMap : Tree Nat).Set "a" 1).Set "b" 2).Delete "a") = true ∧
    countOk ((((NewMap : Tree Nat).Set "a" 1).Set "b" 2).Delete "a") = true :=
  reachable_bst_and_count_invariant _
    (Reachable.delete _ "a" (Reachable.set _ "b" 2 (Reachable.set _ "a" 1
      Reachable.empty)))

/-- C6: when `Delete` reaches the node whose hash matches (the target) and
that node has two non-empty children, the replacement is chosen by subtree
size: if the left subtree is strictly larger, the rightmost pair of the
left subtree becomes the new root pair, the right subtree is kept untouched
and the new left subtree holds the left sequence minus its last pair;
otherwise (ties included) the leftmost pair of the right subtree becomes
the new root pair, the left subtree is kept untouched and the new right
subtree holds the right sequence minus its first pair. -/
theorem delete_two_children_replacement_policy (c hh : Nat) (k : String) (v : α)
    (l r : Tree α) (hcnt : countOk (Tree.node c hh k v l r) = true)
    (hl : l.IsNil = false) (hr : r.IsNil = false) :
    (deleteLowLevel (Tree.node c hh k v l r) hh).2 = true ∧
    (l.count > r.count →
      (deleteLowLevel (Tree.node c hh k v l r) hh).1.rootPair
        = l.forEachSeq.getLast? ∧
      (deleteLowLevel (Tree.node c hh k v l r) hh).1.right = r ∧
      (deleteLowLevel (Tree.node c hh k v l r) hh).1.left.forEachSeq
        = l.forEachSeq.dropLast) ∧
    (¬ l.count > r.count →
      (deleteLowLevel (Tree.node c hh k v l r) hh).1.rootPair
        = r.forEachSeq.head? ∧
      (deleteLowLevel (Tree.node c hh k v l r) hh).1.left = l ∧
      (deleteLowLevel (Tree.node c hh k v l r) hh).1.right.forEachSeq
        = r.forEachSeq.tail) := by
  simp only [countOk_node, Bool.and_eq_true, beq_iff_eq] at hcnt
  obtain ⟨⟨hcc, hcl⟩, hcr⟩ := hcnt
  have hlp := count_pos l hcl hl
  have hrp := count_pos r hcr hr
  have hc1 : ¬ c = 1 := by omega
  have hstep0 : deleteLowLevel (Tree.node c hh k v l r) hh
      = deleteOwnNode (Tree.node c hh k v l r) := by
    simp [deleteLowLevel]
  rw [hstep0]
  by_cases hlr : l.count > r.count
  · have hstep1 : deleteOwnNode (Tree.node c hh k v l r)
        = (recalculateCount (l.deleteRightmost.1.withChildren l.deleteRightmost.2 r),
           true) := by
      simp [deleteOwnNode, Tree.isLeaf, Tree.Size, Tree.subtreeCount, Tree.hasLeft,
        Tree.hasRight, hc1, hl, hr, hlr]
    rw [hstep1]
    obtain ⟨s1, s2⟩ := deleteRightmost_seq l hcl hl
    have hne := forEachSeq_ne_nil l hl
    refine ⟨rfl, ?_, fun hcon => absurd hlr hcon⟩
    intro _
    rcases hd : l.deleteRightmost.1 with _ | ⟨dc, dh, dk, dv, dl, drr⟩
    · rw [hd] at s1
      have hnone : l.forEachSeq.getLast? = none := s1.symm
      rw [List.getLast?_eq_none_iff] at hnone
      exact absurd hnone hne
    · rw [hd] at s1
      simp only [Tree.rootPair_node] at s1
      refine ⟨?_, ?_, ?_⟩
      · simp only [Tree.withChildren, recalculateCount_node, Tree.rootPair_node]
        exact s1
      · simp only [Tree.withChildren, recalculateCount_node, Tree.right_node]
      · simp only [Tree.withChildren, recalculateCount_node, Tree.left_node]
        exact s2
  · have hstep1 : deleteOwnNode (Tree.node c hh k v l r)
        = (recalculateCount (r.deleteLeftmost.1.withChildren l r.deleteLeftmost.2),
           true) := by
      simp [deleteOwnNode, Tree.isLeaf, Tree.Size, Tree.subtreeCount, Tree.hasLeft,
        Tree.hasRight, hc1, hl, hr, hlr]
    rw [hstep1]
    obtain ⟨s1, s2⟩ := deleteLeftmost_seq r hcr hr
    have hne := forEachSeq_ne_nil r hr
    refine ⟨rfl, fun hcon => absurd hcon hlr, ?_⟩
    intro _
    rcases hd : r.deleteLeftmost.1 with _ | ⟨dc, dh, dk, dv, dl, drr⟩
    · rw [hd] at s1
      have hnone : r.forEachSeq.head? = none := s1.symm
      rw [List.head?_eq_none_iff] at hnone
      exact absurd hnone hne
    · rw [hd] at s1
      simp only [Tree.rootPair_node] at s1
      refine ⟨?_, ?_, ?_⟩
      · simp only [Tree.withChildren, recalculateCount_node, Tree.rootPair_node]
        exact s1
      · simp only [Tree.withChildren, recalculateCount_node, Tree.left_node]
      · simp only [Tree.withChildren, recalculateCount_node, Tree.right_node]
        exact s2

/-- Witness for C6 at a concrete three-node tree with equal-size subtrees
(the tie goes to the right branch). -/
theorem delete_two_children_replacement_policy_witness :
    (deleteLowLevel (Tree.node 3 2 "b" (20 : Nat)
        (.node 1 1 "a" 10 .nil .nil) (.node 1 3 "c" 30 .nil .nil)) 2).2 = true ∧
    ((Tree.node 1 1 "a" (10 : Nat) .nil .nil).count
        > (Tree.node 1 3 "c" (30 : Nat) .nil .nil).count →
      (deleteLowLevel (Tree.node 3 2 "b" (20 : Nat)
          (.node 1 1 "a" 10 .nil .nil) (.node 1 3 "c" 30 .nil .nil)) 2).1.rootPair
        = (Tree.node 1 1 "a" (10 : Nat) .nil .nil).forEachSeq.getLast? ∧
      (deleteLowLevel (Tree.node 3 2 "b" (20 : Nat)
          (.node 1 1 "a" 10 .nil .nil) (.node 1 3 "c" 30 .nil .nil)) 2).1.right
        = Tree.node 1 3 "c" (30 : Nat) .nil .nil ∧
      (deleteLowLevel (Tree.node 3 2 "b" (20 : Nat)
          (.node 1 1 "a" 10 .nil .nil) (.node 1 3 "c" 30 .nil .nil)) 2).1.left.forEachSeq
        = (Tree.node 1 1 "a" (10 : Nat) .nil .nil).forEachSeq.dropLast) ∧
    (¬ (Tree.node 1 1 "a" (10 : Nat) .nil .nil).count
        > (Tree.node 1 3 "c" (30 : Nat) .nil .nil).count →
      (deleteLowLevel (Tree.node 3 2 "b" (20 : Nat)
          (.node 1 1 "a" 10 .nil .nil) (.node 1 3 "c" 30 .nil .nil)) 2).1.rootPair
        = (Tree.node 1 3 "c" (30 : Nat) .nil .nil).forEachSeq.head? ∧
      (deleteLowLevel (Tree.node 3 2 "b" (20 : Nat)
          (.node 1 1 "a" 10 .nil .nil) (.node 1 3 "c" 30 .nil .nil)) 2).1.left
        = Tree.node 1 1 "a" (10 : Nat) .nil .nil ∧
      (deleteLowLevel (Tree.node 3 2 "b" (20 : Nat)
          (.node 1 1 "a" 10 .nil .nil) (.node 1 3 "c" 30 .nil .nil)) 2).1.right.forEachSeq
        = (Tree.node 1 3 "c" (30 : Nat) .nil .nil).forEachSeq.tail) :=
  delete_two_children_replacement_policy 3 2 "b" 20
    (.node 1 1 "a" 10 .nil .nil) (.node 1 3 "c" 30 .nil .nil)
    (by decide) (by decide) (by decide)

/-- C7: overwriting a key replaces its value and leaves the size unchanged:
`m.Set(k, v1).Set(k, v2).Lookup(k) == (v2, true)` and the sizes of the two
maps agree. -/
theorem set_overwrite_value_and_size (m : Tree α) (k : String) (v1 v2 : α) :
    ((m.Set k v1).Set k v2).Lookup k = some v2 ∧
    ((m.Set k v1).Set k v2).Size = (m.Set k v1).Size :=
  ⟨lookupLowLevel_setLowLevel _ (hashKey k) k v2,
   count_setLowLevel_setLowLevel m (hashKey k) k v1 k v2⟩

/-- C8: `Head()` and `Tail()` fail exactly on the empty list, with the
empty-container panic message; on any non-empty list both succeed. -/
theorem head_tail_error_iff_empty (l : PList α) :
    (l.Head.isOk = false ↔ l.IsNil = true) ∧
    (l.Tail.isOk = false ↔ l.IsNil = true) ∧
    PList.Head (PList.nil : PList α) = Except.error "Called Head() on an empty list" ∧
    PList.Tail (PList.nil : PList α) = Except.error "Called Tail() on an empty list" := by
  cases l <;> simp [PList.Head, PList.Tail, PList.IsNil, Except.isOk, Except.toBool]

/-- C9: `Keys()` returns exactly `Size()` keys, the `ForEach` in-order
sequence (left, self, right), and that sequence is strictly increasing in
the keys' hash values (hash order, not lexical order). -/
theorem keys_inorder_by_hash (m : Tree α) (h : Reachable m) :
    m.Keys = some (m.forEachSeq.map Prod.fst) ∧
    (m.forEachSeq.map Prod.fst).length = m.Size ∧
    ((m.forEachSeq.map Prod.fst).map hashKey).Pairwise (· < ·) := by
  obtain ⟨ho, hc, hh⟩ := reachable_inv h
  have hlen : m.forEachSeq.length = m.count := length_forEachSeq m hc
  have hmap : (m.forEachSeq.map Prod.fst).map hashKey = hashesInorder m := by
    rw [List.map_map]
    exact map_hashKey_forEachSeq m hh
  refine ⟨?_, ?_, ?_⟩
  · simp [Tree.Keys, Tree.Size, List.length_map, hlen]
  · simp [List.length_map, hlen, Tree.Size]
  · rw [hmap]
    exact pairwise_hashesInorder m ho

/-- Witness for C9 on a concrete two-key map. -/
theorem keys_inorder_by_hash_witness :
    (((NewMap : Tree Nat).Set "a" 1).Set "b" 2).Keys
      = some ((((NewMap : Tree Nat).Set "a" 1).Set "b" 2).forEachSeq.map Prod.fst) ∧
    ((((NewMap : Tree Nat).Set "a" 1).Set "b" 2).forEachSeq.map Prod.fst).length
      = (((NewMap : Tree Nat).Set "a" 1).Set "b" 2).Size ∧
    (((((NewMap : Tree Nat).Set "a" 1).Set "b" 2).forEachSeq.map Prod.fst).map
      hashKey).Pairwise (· < ·) :=
  keys_inorder_by_hash _ (Reachable.set _ "b" 2 (Reachable.set _ "a" 1 Reachable.empty))

/-- C10: `Reverse` is an involution: reversing twice restores the size and
the head-to-tail element sequence (for lists satisfying the stored-depth
invariant of the data model, which all API-built lists do). -/
theorem reverse_involution (l : PList α) (h : l.depthOk = true) :
    l.Reverse.Reverse.Size = l.Size ∧ l.Reverse.Reverse.toList = l.toList := by
  constructor
  · show l.Reverse.Reverse.depth = l.depth
    rw [PList.depth_Reverse, PList.toList_Reverse, List.length_reverse,
      PList.depth_eq_length l h]
  · rw [PList.toList_Reverse, PList.toList_Reverse, List.reverse_reverse]

/-- Witness for C10 on the concrete list `[1, 2, 3]`. -/
theorem reverse_involution_witness :
    ((((NewList : PList Nat).Cons 3).Cons 2).Cons 1).Reverse.Reverse.Size
      = ((((NewList : PList Nat).Cons 3).Cons 2).Cons 1).Size ∧
    ((((NewList : PList Nat).Cons 3).Cons 2).Cons 1).Reverse.Reverse.toList
      = ((((NewList : PList Nat).Cons 3).Cons 2).Cons 1).toList :=
  reverse_involution _ (by decide)

end PS
